import Mathlib

/-!
Verification of the variadic logging prototype (src/main.cc).

The C++ source is shallowly embedded: format strings (`const char*`) become
`List Char`, raw byte buffers (`char*`) become `List Nat` with byte values,
and the supported trivially-copyable argument types (`int`, `char`, `double`)
become the inductive `CppVal`, with encoding as little-endian byte lists.
Stream insertion (`operator<<`) for each supported type is embedded as a pure
text-producing function; for `double` this models the default iostream
rendering (`%g`, precision 6) on the exact binary value.
-/

namespace VariadicLogging

/-! ## Decimal text rendering (models `operator<<` for integral values) -/

/-- Decimal digit character for `n < 10`. -/
def digitChar (n : Nat) : Char := Char.ofNat (48 + n)

/-- Decimal digits of `n`, most significant first, with explicit fuel. -/
def natDecAux : Nat → Nat → List Char
  | 0, _ => []
  | fuel + 1, n => if n < 10 then [digitChar n] else natDecAux fuel (n / 10) ++ [digitChar (n % 10)]

/-- Decimal text of a natural number, as written by `operator<<`. -/
def natToDecimal (n : Nat) : List Char := natDecAux (n + 1) n

/-- Decimal text of an `int` value, as written by `operator<<`. -/
def renderInt (i : Int) : List Char :=
  if i < 0 then '-' :: natToDecimal i.natAbs else natToDecimal i.toNat

/-! ## Little-endian byte encoding (models `memcpy` of a fixed-width value) -/

/-- The `k` little-endian bytes of `n`, as `memcpy` lays them out. -/
def natToLEBytes : Nat → Nat → List Nat
  | 0, _ => []
  | k + 1, n => n % 256 :: natToLEBytes k (n / 256)

/-- Reassemble a little-endian byte list into the stored value. -/
def leDecode : List Nat → Nat
  | [] => 0
  | b :: rest => b + 256 * leDecode rest

/-! ## Default `double` rendering (`%g`, precision 6) on the exact binary value -/

/-- Round `num / den` to the nearest integer, ties to even. -/
def roundHalfEven (num den : Nat) : Nat :=
  let q := num / den
  let r := num % den
  if 2 * r < den then q
  else if 2 * r > den then q + 1
  else if q % 2 = 0 then q else q + 1

/-- Drop trailing `'0'` characters of a fractional digit run. -/
def stripTrailingZeros (ds : List Char) : List Char :=
  (ds.reverse.dropWhile (fun c => c = '0')).reverse

/-- Smallest `k ≥ 1` with `x * 10^k ≥ den`, by fuel. -/
def smallKAux : Nat → Nat → Nat → Nat
  | 0, _, _ => 1
  | fuel + 1, x, den => if x * 10 ≥ den then 1 else 1 + smallKAux fuel (x * 10) den

/-- Decimal exponent of the positive rational `num / den`:
the `X` with `10^X ≤ num / den < 10^(X+1)`. -/
def decExp (num den : Nat) : Int :=
  if num ≥ den then ((natToDecimal (num / den)).length : Int) - 1
  else -(smallKAux den num den : Int)

/-- `%g` with precision 6 of the positive rational `num / den`: round to six
significant digits (ties to even), then fixed notation for decimal exponents
in `[-4, 6)` and scientific notation otherwise, trailing zeros stripped. -/
def formatG6 (num den : Nat) : List Char :=
  let x0 := decExp num den
  let r0 :=
    if x0 ≤ 5 then roundHalfEven (num * 10 ^ (5 - x0).toNat) den
    else roundHalfEven num (den * 10 ^ (x0 - 5).toNat)
  let r := if r0 ≥ 10 ^ 6 then r0 / 10 else r0
  let x := if r0 ≥ 10 ^ 6 then x0 + 1 else x0
  let ds := natToDecimal r
  if -4 ≤ x ∧ x < 6 then
    if 0 ≤ x then
      let ip := ds.take (x.toNat + 1)
      let fp := stripTrailingZeros (ds.drop (x.toNat + 1))
      ip ++ (if fp = [] then [] else '.' :: fp)
    else
      let fp := stripTrailingZeros (List.replicate (-x - 1).toNat '0' ++ ds)
      '0' :: '.' :: fp
  else
    let tl := stripTrailingZeros (ds.drop 1)
    let mant := ds.take 1 ++ (if tl = [] then [] else '.' :: tl)
    let ea := x.natAbs
    mant ++ 'e' :: (if x < 0 then '-' else '+') ::
      (if ea < 10 then '0' :: natToDecimal ea else natToDecimal ea)

/-- Default iostream text of the IEEE-754 double with bit pattern `bits`. -/
def renderDoubleBits (bits : Nat) : List Char :=
  let s := bits / 2 ^ 63
  let e := (bits / 2 ^ 52) % 2 ^ 11
  let m := bits % 2 ^ 52
  let sign : List Char := if s = 1 then ['-'] else []
  if e = 2047 then sign ++ (if m = 0 then ['i', 'n', 'f'] else ['n', 'a', 'n'])
  else if e = 0 ∧ m = 0 then sign ++ ['0']
  else if e = 0 then sign ++ formatG6 m (2 ^ 1074)
  else if e ≥ 1075 then sign ++ formatG6 ((2 ^ 52 + m) * 2 ^ (e - 1075)) 1
  else sign ++ formatG6 (2 ^ 52 + m) (2 ^ (1075 - e))

/-! ## The supported argument types

The prototype supports fixed-size trivially-copyable values; the ones it is
instantiated with are `int` (4 bytes), `char` (1 byte) and `double` (8 bytes).
-/

/-- Type tag of a supported argument (the template parameter of
`LogFormatter<T...>` / `FormatArg<Arg>`). -/
inductive CppTy : Type
  | tyInt32
  | tyChar
  | tyDouble
deriving DecidableEq, Repr

/-- `sizeof` of a supported argument type. -/
def sizeofTy : CppTy → Nat
  | .tyInt32 => 4
  | .tyChar => 1
  | .tyDouble => 8

/-- A supported argument value: an `int`, a `char` (byte value), or a
`double` (IEEE-754 bit pattern). -/
inductive CppVal : Type
  | vInt32 (n : Int)
  | vChar (b : Nat)
  | vDouble (bits : Nat)
deriving DecidableEq, Repr

/-- The static type of a value. -/
def tyOf : CppVal → CppTy
  | .vInt32 _ => .tyInt32
  | .vChar _ => .tyChar
  | .vDouble _ => .tyDouble

/-- `sizeof` of a value. -/
def sizeofVal (v : CppVal) : Nat := sizeofTy (tyOf v)

/-- A value representable by the machine type it is declared with:
`int` is a 32-bit two's-complement integer, `char` a byte,
`double` a 64-bit pattern. -/
def wfVal : CppVal → Prop
  | .vInt32 n => -(2 ^ 31) ≤ n ∧ n < 2 ^ 31
  | .vChar b => b < 2 ^ 8
  | .vDouble bits => bits < 2 ^ 64

instance : DecidablePred wfVal := fun v => by
  cases v <;> simp only [wfVal] <;> infer_instance

/-- The object representation `memcpy` copies: the value's raw bytes,
little-endian (`int` as two's complement). -/
def encodeVal : CppVal → List Nat
  | .vInt32 n => natToLEBytes 4 (n % (2 ^ 32 : Int)).toNat
  | .vChar b => natToLEBytes 1 b
  | .vDouble bits => natToLEBytes 8 bits

/-- The text `operator<<` writes for the value itself (the argument's
default textual form). -/
def renderVal : CppVal → List Char
  | .vInt32 n => renderInt n
  | .vChar b => [Char.ofNat (b % 256)]
  | .vDouble bits => renderDoubleBits (bits % 2 ^ 64)

/-- `FormatArg<Arg>`'s read of the payload: reinterpret the bytes at the
cursor as the argument type and write its text
(src/main.cc:20-26). -/
def renderTy : CppTy → List Nat → List Char
  | .tyInt32, bytes =>
      let u : Nat := leDecode (bytes.take 4) % 2 ^ 32
      renderInt (if u < 2 ^ 31 then (u : Int) else (u : Int) - 2 ^ 32)
  | .tyChar, bytes => [Char.ofNat (leDecode (bytes.take 1) % 256)]
  | .tyDouble, bytes => renderDoubleBits (leDecode (bytes.take 8) % 2 ^ 64)

/-! ## `LogFormatter` (src/main.cc:14-55)

A `LogFormatter<T...>` instance is its stored format string together with its
template type pack. -/

/-- The data of a `LogFormatter<T...>` instance: `mFormatString` and the
argument type sequence `T...` (src/main.cc:14-18). -/
structure LogFormatterD : Type where
  mFormatString : List Char
  argTypes : List CppTy
deriving DecidableEq, Repr

/-- Model of `std::strstr(formatString, "%")` followed by the split the code
performs: the span before the first `'%'` and the rest after it
(src/main.cc:38-46 uses `firstPlaceholder` and `firstPlaceholder + 1`).
`none` is the `nullptr` case, in which the source's pointer arithmetic is
undefined. -/
def splitFirstPercent : List Char → Option (List Char × List Char)
  | [] => none
  | c :: rest =>
      if c = '%' then some ([], rest)
      else
        match splitFirstPercent rest with
        | none => none
        | some (pre, post) => some (c :: pre, post)

/-- `LogFormatter::Format` (src/main.cc:28-47): with no remaining pack
arguments, write the rest of the format string; otherwise write up to the
first placeholder, reinterpret `sizeof(Arg)` payload bytes as the argument
and write its text, then continue after the placeholder with the advanced
payload cursor. The sink accumulates written text; `none` models the
undefined `strstr` failure. -/
def Format : List CppTy → List Char → List Nat → List Char → Option (List Char)
  | [], fmt, _, sink => some (sink ++ fmt)
  | ty :: tys, fmt, argsData, sink =>
      match splitFirstPercent fmt with
      | none => none
      | some (pre, post) =>
          Format tys post (argsData.drop (sizeofTy ty))
            (sink ++ pre ++ renderTy ty (argsData.take (sizeofTy ty)))

/-- `LogFormatter::Evaluate` (src/main.cc:50-54): run `Format` over the
stored format string and type pack. -/
def Evaluate (d : LogFormatterD) (argsData : List Nat) (sink : List Char) :
    Option (List Char) :=
  Format d.argTypes d.mFormatString argsData sink

/-! ## `LogWriter` (src/main.cc:57-144) -/

/-- `LogWriter::GetArgSize` (src/main.cc:133-137): `sizeof(arg)`. -/
def GetArgSize (v : CppVal) : Nat := sizeofVal v

/-- `LogWriter::GetArgsSize` (src/main.cc:128-143): sum of the sizes of all
arguments, zero for none. -/
def GetArgsSize : List CppVal → Nat
  | [] => 0
  | v :: vs => GetArgSize v + GetArgsSize vs

/-- `LogWriter::CopyArg` (src/main.cc:107-112): `memcpy` the argument's
`sizeof` bytes and advance the buffer pointer by `sizeof`. -/
def CopyArg (v : CppVal) : List Nat := encodeVal v

/-- `LogWriter::CopyArgs` (src/main.cc:115-126): write each argument's bytes
in declaration order; the returned list is exactly the bytes written, so the
final buffer pointer is the start plus its length. -/
def CopyArgs : List CppVal → List Nat
  | [] => []
  | v :: vs => CopyArg v ++ CopyArgs vs

/-- `sizeof(Header::mBuffer)` (src/main.cc:63): the slot payload capacity. -/
def slotCapacity : Nat := 128

/-- `LogWriter::Header` (src/main.cc:60-67): the 128-byte payload buffer and
the formatter pointer. -/
structure Header : Type where
  mBuffer : List Nat
  mLogFormatter : Option LogFormatterD
deriving DecidableEq, Repr

/-- The zero-initialized static `Header` that `GetNextHeader` returns on
every call (src/main.cc:91-96). -/
def initialHeader : Header :=
  { mBuffer := List.replicate slotCapacity 0, mLogFormatter := none }

/-- `LogWriter::Write` acting on the single static header
(src/main.cc:83-104): `GetLogBuffer` stores the formatter pointer and
returns the buffer unconditionally — `sizeRequired` is ignored, there is no
capacity check — and `CopyArgs` then writes every argument byte from the
start of the buffer, past its end if the arguments are too large. -/
def writeToHeader (h : Header) (d : LogFormatterD) (args : List CppVal) : Header :=
  { mBuffer := CopyArgs args ++ h.mBuffer.drop (GetArgsSize args)
    mLogFormatter := some d }

/-- `LogConsumer::Consume` (src/main.cc:169-172): evaluate the record's
formatter on its payload, appending to the output stream. `none` also covers
the null-formatter case (no record was ever written). -/
def Consume (h : Header) (sink : List Char) : Option (List Char) :=
  match h.mLogFormatter with
  | none => none
  | some d => Evaluate d h.mBuffer sink

/-! ## The `LOG` macro and the call-site registry (src/main.cc:147-194) -/

/-- `CountPlaceholders` (src/main.cc:183-188): the number of `'%'`
characters of the format string, by the source's recursion. -/
def CountPlaceholders : List Char → Nat
  | [] => 0
  | c :: rest => (if c = '%' then 1 else 0) + CountPlaceholders rest

/-- `sizeof_args` (src/main.cc:176-180): the number of supplied arguments. -/
def sizeof_args (args : List CppVal) : Nat := args.length

/-- The `LOG` macro followed by `WriteLog` and `Write` at one call site
(src/main.cc:147-158, 191-194): the `static_assert` rejects the call unless
the placeholder count equals the argument count — `none` is a compile error,
before any record exists — and an accepted call binds the call site's
formatter and writes the encoded arguments into the header. -/
def LOGrun (h : Header) (fmt : List Char) (args : List CppVal) : Option Header :=
  if CountPlaceholders fmt = sizeof_args args then
    some (writeToHeader h { mFormatString := fmt, argTypes := args.map tyOf } args)
  else none

/-- One call site as the registry sees it: the identity of the expansion of
`LOG` (which owns one `static BaseLogFormatter* sLogFormatter`), its format
string and its argument type sequence. -/
structure SiteCall : Type where
  site : Nat
  fmt : List Char
  types : List CppTy
deriving DecidableEq, Repr

/-- The program-wide allocation state for descriptors: the next address
`new` returns, and each call site's `sLogFormatter` static
(src/main.cc:193). -/
structure RegState : Type where
  nextId : Nat
  siteDesc : Nat → Option Nat

/-- Program start: no call site has constructed its formatter. -/
def initRegState : RegState := { nextId := 0, siteDesc := fun _ => none }

/-- `WriteLog`'s descriptor resolution (src/main.cc:147-158): if the call
site's static pointer is null, construct a fresh `LogFormatter` with `new`
(a fresh address) and store it; either way the record references the call
site's pointer. -/
def writeLogDesc (s : RegState) (c : SiteCall) : RegState × Nat :=
  match s.siteDesc c.site with
  | some d => (s, d)
  | none =>
      ({ nextId := s.nextId + 1
         siteDesc := fun k => if k = c.site then some s.nextId else s.siteDesc k },
       s.nextId)

/-- Run a sequence of log calls, collecting for each the descriptor instance
its record references. -/
def runCalls : RegState → List SiteCall → RegState × List (SiteCall × Nat)
  | s, [] => (s, [])
  | s, c :: cs =>
      let p := writeLogDesc s c
      let q := runCalls p.1 cs
      (q.1, (c, p.2) :: q.2)

/-- Allocation-state invariant: every stored descriptor address was returned
by a prior `new`, and distinct call sites store distinct addresses. -/
def RegInv (s : RegState) : Prop :=
  (∀ k d, s.siteDesc k = some d → d < s.nextId) ∧
  (∀ k₁ k₂ d₁ d₂, s.siteDesc k₁ = some d₁ → s.siteDesc k₂ = some d₂ →
    k₁ ≠ k₂ → d₁ ≠ d₂)

/-- The successive payload spans `Format` hands to `FormatArg`: for each
type in turn, the next `sizeof` bytes at the advancing cursor
(src/main.cc:36-46, the `argsData.take`/`argsData.drop` pattern of
`Format`). -/
def evalSlices : List CppTy → List Nat → List (List Nat)
  | [], _ => []
  | ty :: tys, data => data.take (sizeofTy ty) :: evalSlices tys (data.drop (sizeofTy ty))

/-! ## The specification-side straightforward formatter

Used only to compare `Evaluate ∘ Encode` against direct substitution; this
definition follows the spec's words ("substituting each placeholder with the
argument's text form in order", literal spans verbatim), not the source. -/

/-- Direct substitution: copy the format string, replacing each `'%'` with
the next text in order; leftover placeholders (never reached under matching
arity) stay as written. -/
def specSubstitute : List Char → List (List Char) → List Char
  | [], _ => []
  | c :: rest, [] => c :: specSubstitute rest []
  | c :: rest, t :: ts =>
      if c = '%' then t ++ specSubstitute rest ts
      else c :: specSubstitute rest (t :: ts)

/-! ## Byte-level helper lemmas -/

theorem natToLEBytes_length : ∀ (k n : Nat), (natToLEBytes k n).length = k
  | 0, _ => rfl
  | k + 1, n => by simp [natToLEBytes, natToLEBytes_length k]

theorem leDecode_natToLEBytes : ∀ (k n : Nat), n < 256 ^ k →
    leDecode (natToLEBytes k n) = n
  | 0, n, h => by
      simp only [pow_zero, Nat.lt_one_iff] at h
      simp [natToLEBytes, leDecode, h]
  | k + 1, n, h => by
      have hd : n / 256 < 256 ^ k := by
        rw [Nat.div_lt_iff_lt_mul (by norm_num)]
        calc n < 256 ^ (k + 1) := h
          _ = 256 ^ k * 256 := by ring
      simp only [natToLEBytes, leDecode, leDecode_natToLEBytes k (n / 256) hd]
      omega

theorem encodeVal_length (v : CppVal) : (encodeVal v).length = sizeofVal v := by
  cases v <;> simp [encodeVal, sizeofVal, tyOf, sizeofTy, natToLEBytes_length]

theorem take_all_of_length_eq {α : Type} {l : List α} {n : Nat}
    (h : l.length = n) : l.take n = l := by
  subst h
  exact List.take_length l

/-- Decoding the bytes `memcpy` stored reproduces the argument's text:
`FormatArg` on the value's object representation writes exactly the value's
own text. -/
theorem renderTy_encodeVal (v : CppVal) (hwf : wfVal v) :
    renderTy (tyOf v) (encodeVal v) = renderVal v := by
  cases v with
  | vInt32 n =>
      obtain ⟨hlo, hhi⟩ := hwf
      have hm0 : (0 : Int) ≤ n % 2 ^ 32 := Int.emod_nonneg n (by norm_num)
      have hmlt : n % (2 ^ 32 : Int) < 2 ^ 32 := Int.emod_lt_of_pos n (by norm_num)
      have hkey : (((n % (2 ^ 32 : Int)).toNat : Int)) = n % 2 ^ 32 :=
        Int.toNat_of_nonneg hm0
      have hval : n % (2 ^ 32 : Int) = n ∨ n % (2 ^ 32 : Int) = n + 2 ^ 32 := by
        rcases le_or_lt 0 n with h0 | h0
        · exact Or.inl (Int.emod_eq_of_lt h0 (by omega))
        · refine Or.inr ?_
          have hshift : (n + 2 ^ 32 * 1) % (2 ^ 32 : Int) = n % 2 ^ 32 :=
            Int.add_mul_emod_self_left n (2 ^ 32) 1
          rw [mul_one] at hshift
          rw [← hshift]
          exact Int.emod_eq_of_lt (by omega) (by omega)
      have hu : (n % (2 ^ 32 : Int)).toNat < 2 ^ 32 := by omega
      simp only [tyOf, encodeVal, renderTy, renderVal]
      rw [take_all_of_length_eq (natToLEBytes_length 4 _),
        leDecode_natToLEBytes 4 _ (by norm_num at hu ⊢; omega)]
      have harg :
          (if ((n % (2 ^ 32 : Int)).toNat % 2 ^ 32 : Nat) < 2 ^ 31 then
              (((n % (2 ^ 32 : Int)).toNat % 2 ^ 32 : Nat) : Int)
            else (((n % (2 ^ 32 : Int)).toNat % 2 ^ 32 : Nat) : Int) - 2 ^ 32) = n := by
        rw [Nat.mod_eq_of_lt hu]
        split <;> omega
      rw [harg]
  | vChar b =>
      simp only [tyOf, encodeVal, renderTy, renderVal, natToLEBytes, leDecode]
      norm_num
  | vDouble bits =>
      have hb : bits < 2 ^ 64 := hwf
      simp only [tyOf, encodeVal, renderTy, renderVal]
      rw [take_all_of_length_eq (natToLEBytes_length 8 _),
        leDecode_natToLEBytes 8 _ (by norm_num at hb ⊢; omega)]

theorem CopyArgs_append_take (v : CppVal) (vs : List CppVal) :
    (CopyArgs (v :: vs)).take (sizeofTy (tyOf v)) = encodeVal v := by
  simp only [CopyArgs, CopyArg]
  exact List.take_left' (by rw [encodeVal_length]; rfl)

theorem CopyArgs_append_drop (v : CppVal) (vs : List CppVal) :
    (CopyArgs (v :: vs)).drop (sizeofTy (tyOf v)) = CopyArgs vs := by
  simp only [CopyArgs, CopyArg]
  exact List.drop_left' (by rw [encodeVal_length]; rfl)

/-! ## Placeholder scanning lemmas -/

theorem CountPlaceholders_append (a b : List Char) :
    CountPlaceholders (a ++ b) = CountPlaceholders a + CountPlaceholders b := by
  induction a with
  | nil => simp [CountPlaceholders]
  | cons c rest ih => simp [CountPlaceholders, ih]; ring

theorem CountPlaceholders_eq_count (l : List Char) :
    CountPlaceholders l = l.count '%' := by
  induction l with
  | nil => rfl
  | cons c rest ih =>
      rw [CountPlaceholders, ih, List.count_cons]
      by_cases hc : c = '%'
      · simp [hc]
        omega
      · simp [hc]

theorem splitFirstPercent_some {fmt pre post : List Char}
    (h : splitFirstPercent fmt = some (pre, post)) :
    fmt = pre ++ '%' :: post ∧ CountPlaceholders pre = 0 := by
  induction fmt generalizing pre post with
  | nil => simp [splitFirstPercent] at h
  | cons c rest ih =>
      by_cases hc : c = '%'
      · subst hc
        simp [splitFirstPercent] at h
        obtain ⟨h1, h2⟩ := h
        subst h1; subst h2
        exact ⟨rfl, rfl⟩
      · rw [splitFirstPercent, if_neg hc] at h
        cases hsp : splitFirstPercent rest with
        | none => rw [hsp] at h; simp at h
        | some pq =>
            obtain ⟨p, q⟩ := pq
            rw [hsp] at h
            simp at h
            obtain ⟨h1, h2⟩ := h
            subst h1; subst h2
            obtain ⟨ihl, ihr⟩ := ih hsp
            refine ⟨by rw [List.cons_append, ← ihl], ?_⟩
            simp [CountPlaceholders, hc, ihr]

theorem splitFirstPercent_of_pos {fmt : List Char}
    (h : 0 < CountPlaceholders fmt) :
    ∃ pre post, splitFirstPercent fmt = some (pre, post) := by
  induction fmt with
  | nil => simp [CountPlaceholders] at h
  | cons c rest ih =>
      by_cases hc : c = '%'
      · exact ⟨[], rest, by simp [splitFirstPercent, hc]⟩
      · rw [CountPlaceholders, if_neg hc] at h
        simp only [Nat.zero_add] at h
        obtain ⟨p, q, hpq⟩ := ih h
        exact ⟨c :: p, q, by simp [splitFirstPercent, hc, hpq]⟩

/-! ## `Format` structure lemmas -/

/-- `Format` only appends to the stream: running it on any sink writes the
same text it writes on the empty sink, after the sink's prior content. -/
theorem Format_sink_append (tys : List CppTy) :
    ∀ (fmt : List Char) (argsData : List Nat) (sink : List Char),
      Format tys fmt argsData sink =
        (Format tys fmt argsData []).map (fun t => sink ++ t) := by
  induction tys with
  | nil => intro fmt argsData sink; simp [Format]
  | cons ty tys ih =>
      intro fmt argsData sink
      simp only [Format]
      cases hsp : splitFirstPercent fmt with
      | none => simp
      | some pq =>
          obtain ⟨pre, post⟩ := pq
          simp only
          rw [ih post _ (sink ++ pre ++ renderTy ty (argsData.take (sizeofTy ty))),
            ih post _ ([] ++ pre ++ renderTy ty (argsData.take (sizeofTy ty)))]
          cases Format tys post (argsData.drop (sizeofTy ty)) [] with
          | none => simp
          | some t => simp

/-- With no placeholders in the text, direct substitution copies it
verbatim. -/
theorem specSubstitute_no_placeholder {fmt : List Char}
    (h : CountPlaceholders fmt = 0) (texts : List (List Char)) :
    specSubstitute fmt texts = fmt := by
  induction fmt with
  | nil => rfl
  | cons c rest ih =>
      rw [CountPlaceholders] at h
      have hc : ¬ c = '%' := by
        intro hc; rw [if_pos hc] at h; omega
      rw [if_neg hc] at h
      simp only [Nat.zero_add] at h
      cases texts with
      | nil => rw [specSubstitute, ih h]
      | cons t ts => rw [specSubstitute, if_neg hc, ih h]

/-- Direct substitution across the first placeholder: the percent-free span
before it is copied, the placeholder becomes the first text, and
substitution continues after it. -/
theorem specSubstitute_split {pre : List Char} (post : List Char)
    (h : CountPlaceholders pre = 0) (t : List Char) (ts : List (List Char)) :
    specSubstitute (pre ++ '%' :: post) (t :: ts) =
      pre ++ t ++ specSubstitute post ts := by
  induction pre with
  | nil => simp [specSubstitute]
  | cons c rest ih =>
      rw [CountPlaceholders] at h
      have hc : ¬ c = '%' := by
        intro hc; rw [if_pos hc] at h; omega
      rw [if_neg hc] at h
      simp only [Nat.zero_add] at h
      rw [List.cons_append, specSubstitute, if_neg hc, ih h]
      simp

/-- The round-trip induction: decoding the concatenated argument encodings
against a format string with exactly one placeholder per argument renders
the directly substituted text. -/
theorem Format_CopyArgs (vs : List CppVal) :
    ∀ (fmt : List Char) (sink : List Char),
      (∀ v ∈ vs, wfVal v) → CountPlaceholders fmt = vs.length →
      Format (vs.map tyOf) fmt (CopyArgs vs) sink =
        some (sink ++ specSubstitute fmt (vs.map renderVal)) := by
  induction vs with
  | nil =>
      intro fmt sink _ harity
      rw [List.map_nil, List.map_nil, Format,
        specSubstitute_no_placeholder harity]
  | cons v vs ih =>
      intro fmt sink hwf harity
      have hpos : 0 < CountPlaceholders fmt := by
        rw [harity]; simp
      obtain ⟨pre, post, hsp⟩ := splitFirstPercent_of_pos hpos
      obtain ⟨hfmt, hpre⟩ := splitFirstPercent_some hsp
      have hpost : CountPlaceholders post = vs.length := by
        rw [hfmt, CountPlaceholders_append, hpre, CountPlaceholders] at harity
        simp at harity
        omega
      rw [List.map_cons, Format, hsp]
      simp only
      rw [CopyArgs_append_take, CopyArgs_append_drop,
        renderTy_encodeVal v (hwf v (by simp)),
        ih post (sink ++ pre ++ renderVal v) (fun w hw => hwf w (by simp [hw])) hpost,
        hfmt, List.map_cons,
        specSubstitute_split post hpre (renderVal v) (vs.map renderVal)]
      simp

/-! ## Encoder layout lemmas -/

theorem CopyArgs_length (vs : List CppVal) :
    (CopyArgs vs).length = GetArgsSize vs := by
  induction vs with
  | nil => rfl
  | cons v vs ih =>
      simp [CopyArgs, CopyArg, GetArgsSize, GetArgSize, encodeVal_length, ih]

theorem CopyArgs_offset (vs : List CppVal) :
    ∀ (i : Nat) (hi : i < vs.length),
      ((CopyArgs vs).drop (GetArgsSize (vs.take i))).take
          (sizeofVal (vs.get ⟨i, hi⟩)) =
        encodeVal (vs.get ⟨i, hi⟩) := by
  induction vs with
  | nil => intro i hi; simp at hi
  | cons v vs ih =>
      intro i hi
      cases i with
      | zero =>
          simp only [List.take, GetArgsSize, List.drop, CopyArgs, CopyArg, List.get]
          exact List.take_left' (encodeVal_length v)
      | succ i =>
          have hi' : i < vs.length := by simpa using hi
          simp only [List.take, GetArgsSize, GetArgSize, CopyArgs, CopyArg, List.get]
          rw [← List.drop_drop, List.drop_left' (encodeVal_length v)]
          exact ih i hi'

theorem evalSlices_CopyArgs (vs : List CppVal) :
    evalSlices (vs.map tyOf) (CopyArgs vs) = vs.map encodeVal := by
  induction vs with
  | nil => rfl
  | cons v vs ih =>
      rw [List.map_cons, List.map_cons, evalSlices, CopyArgs_append_take,
        CopyArgs_append_drop, ih]

/-! ## Registry lemmas -/

theorem regInv_init : RegInv initRegState := by
  constructor
  · intro k d h
    simp [initRegState] at h
  · intro k₁ k₂ d₁ d₂ h₁
    simp [initRegState] at h₁

theorem writeLogDesc_inv {s : RegState} (c : SiteCall) (hs : RegInv s) :
    RegInv (writeLogDesc s c).1 := by
  obtain ⟨hbound, hinj⟩ := hs
  unfold writeLogDesc
  cases hc : s.siteDesc c.site with
  | some d => exact ⟨hbound, hinj⟩
  | none =>
      simp only
      constructor
      · intro k d h
        by_cases hk : k = c.site
        · simp [hk] at h ⊢
          omega
        · simp [hk] at h ⊢
          have := hbound k d h
          omega
      · intro k₁ k₂ d₁ d₂ h₁ h₂ hne
        by_cases hk₁ : k₁ = c.site <;> by_cases hk₂ : k₂ = c.site
        · exact absurd (hk₁.trans hk₂.symm) hne
        · simp [hk₁, hk₂] at h₁ h₂
          have := hbound k₂ d₂ h₂
          omega
        · simp [hk₁, hk₂] at h₁ h₂
          have := hbound k₁ d₁ h₁
          omega
        · simp [hk₁, hk₂] at h₁ h₂
          exact hinj k₁ k₂ d₁ d₂ h₁ h₂ hne

theorem writeLogDesc_sets (s : RegState) (c : SiteCall) :
    (writeLogDesc s c).1.siteDesc c.site = some (writeLogDesc s c).2 := by
  unfold writeLogDesc
  cases hc : s.siteDesc c.site with
  | some d => exact hc
  | none => simp

theorem writeLogDesc_mono {s : RegState} {k d : Nat} (c : SiteCall)
    (h : s.siteDesc k = some d) :
    (writeLogDesc s c).1.siteDesc k = some d := by
  unfold writeLogDesc
  cases hc : s.siteDesc c.site with
  | some e => exact h
  | none =>
      simp only
      by_cases hk : k = c.site
      · rw [hk] at h
        rw [h] at hc
        exact absurd hc (by simp)
      · simp [hk, h]

theorem runCalls_mono {s : RegState} {k d : Nat} (cs : List SiteCall)
    (h : s.siteDesc k = some d) :
    (runCalls s cs).1.siteDesc k = some d := by
  induction cs generalizing s with
  | nil => exact h
  | cons c cs ih => exact ih (writeLogDesc_mono c h)

theorem runCalls_inv {s : RegState} (cs : List SiteCall) (hs : RegInv s) :
    RegInv (runCalls s cs).1 := by
  induction cs generalizing s with
  | nil => exact hs
  | cons c cs ih => exact ih (writeLogDesc_inv c hs)

/-- Every record's descriptor reference agrees with the final value of its
call site's static pointer: once a call site's formatter is constructed it
is never replaced. -/
theorem runCalls_record {s : RegState} (cs : List SiteCall)
    {c : SiteCall} {d : Nat} (h : (c, d) ∈ (runCalls s cs).2) :
    (runCalls s cs).1.siteDesc c.site = some d := by
  induction cs generalizing s with
  | nil => simp [runCalls] at h
  | cons c₀ cs ih =>
      rw [runCalls] at h ⊢
      simp only [List.mem_cons] at h
      cases h with
      | inl h =>
          obtain ⟨h1, h2⟩ := Prod.mk.injEq .. ▸ (by exact congrArg id h : (c, d) = (c₀, (writeLogDesc s c₀).2))
          rw [h1, h2]
          exact runCalls_mono cs (writeLogDesc_sets s c₀)
      | inr h => exact ih h

/-! ## Claim theorems -/

/-- C1: for every supported argument sequence — fixed-size trivially-copyable
values, machine-representable, with as many placeholders in the format
string as arguments — evaluating the bound descriptor on the encoded payload
writes to the sink exactly the text obtained by directly substituting each
argument's default textual form for the placeholders in order, literal spans
between placeholders copied verbatim. -/
theorem evaluate_encode_roundTrip (vs : List CppVal) (fmt sink : List Char)
    (hwf : ∀ v ∈ vs, wfVal v) (harity : CountPlaceholders fmt = vs.length) :
    Evaluate { mFormatString := fmt, argTypes := vs.map tyOf } (CopyArgs vs) sink =
      some (sink ++ specSubstitute fmt (vs.map renderVal)) :=
  Format_CopyArgs vs fmt sink hwf harity

theorem evaluate_encode_roundTrip_witness :
    Evaluate { mFormatString := "v=%".data, argTypes := [CppVal.vInt32 7].map tyOf }
        (CopyArgs [CppVal.vInt32 7]) [] =
      some ([] ++ specSubstitute "v=%".data ([CppVal.vInt32 7].map renderVal)) :=
  evaluate_encode_roundTrip [CppVal.vInt32 7] "v=%".data [] (by decide) (by decide)

set_option maxRecDepth 10000 in
/-- C2: `Log("Hello int=% char=% float=%", 1, 'a', 42.3)` — with `'a'` the
byte 97 and `42.3` the IEEE-754 double with bit pattern 4631150013066929766
(0x4045266666666666) — once its record is consumed, renders exactly
`"Hello int=1 char=a float=42.3"` (src/main.cc:196-203). -/
theorem log_hello_scenario :
    (LOGrun initialHeader "Hello int=% char=% float=%".data
        [CppVal.vInt32 1, CppVal.vChar 97, CppVal.vDouble 4631150013066929766]).bind
        (fun h => Consume h []) =
      some "Hello int=1 char=a float=42.3".data := by decide

set_option maxRecDepth 10000 in
/-- C3 (the code violates the claim): seventeen `double` arguments encode to
136 bytes, more than the 128-byte slot payload capacity, yet the accepted
call writes all 136 bytes into the slot buffer — past its end — instead of
failing with an overflow, dropping the record and counting it;
`GetLogBuffer` ignores `sizeRequired` (src/main.cc:98-104) and no drop
counter exists anywhere in the source. -/
theorem write_unchecked_overflow :
    GetArgsSize (List.replicate 17 (CppVal.vDouble 0)) = 136 ∧
    slotCapacity = 128 ∧
    (LOGrun initialHeader (List.replicate 17 '%')
        (List.replicate 17 (CppVal.vDouble 0))).map (fun h => h.mBuffer.length) =
      some 136 := by decide

/-- C4: a log call is accepted — `LOG`'s `static_assert` passes, so a record
can be produced at all — exactly when the number of `'%'` placeholder
markers in the format string equals the number of supplied arguments; a
mismatch yields no record. -/
theorem log_arity_compile_gate (hdr : Header) (fmt : List Char)
    (args : List CppVal) :
    (LOGrun hdr fmt args).isSome = true ↔ fmt.count '%' = args.length := by
  unfold LOGrun
  rw [← CountPlaceholders_eq_count]
  by_cases h : CountPlaceholders fmt = sizeof_args args
  · simp [h, sizeof_args]
  · simp [h]
    exact fun hc => absurd hc h

/-- C5: over any sequence of log calls, two records from the same call site
reference the same descriptor instance (the call site's formatter is
constructed at most once and then reused), and records from distinct call
sites never reference the same descriptor instance. -/
theorem descriptor_per_call_site (calls : List SiteCall)
    (r₁ r₂ : SiteCall × Nat)
    (h₁ : r₁ ∈ (runCalls initRegState calls).2)
    (h₂ : r₂ ∈ (runCalls initRegState calls).2) :
    (r₁.1.site = r₂.1.site → r₁.2 = r₂.2) ∧
    (r₁.1.site ≠ r₂.1.site → r₁.2 ≠ r₂.2) := by
  obtain ⟨c₁, d₁⟩ := r₁
  obtain ⟨c₂, d₂⟩ := r₂
  have k₁ := runCalls_record calls h₁
  have k₂ := runCalls_record calls h₂
  have hinv := runCalls_inv calls regInv_init
  constructor
  · intro hs
    rw [hs] at k₁
    rw [k₁] at k₂
    exact (Option.some.injEq d₁ d₂ ▸ k₂)
  · intro hne
    exact hinv.2 c₁.site c₂.site d₁ d₂ k₁ k₂ hne

theorem descriptor_per_call_site_witness :
    ((({ site := 0, fmt := [], types := [] }, 0) : SiteCall × Nat).1.site =
          ((({ site := 1, fmt := [], types := [] }, 1) : SiteCall × Nat)).1.site →
        (0 : Nat) = 1) ∧
    ((({ site := 0, fmt := [], types := [] }, 0) : SiteCall × Nat).1.site ≠
          ((({ site := 1, fmt := [], types := [] }, 1) : SiteCall × Nat)).1.site →
        (0 : Nat) ≠ 1) :=
  descriptor_per_call_site
    [{ site := 0, fmt := [], types := [] }, { site := 1, fmt := [], types := [] }]
    ({ site := 0, fmt := [], types := [] }, 0)
    ({ site := 1, fmt := [], types := [] }, 1)
    (by decide) (by decide)

/-- C6 counterexample: two distinct call sites with the same format string
`"x=%"` and the same argument type sequence `[int]` construct two distinct
descriptor instances (addresses 0 and 1) — the cache is per call site, not
per (format string, argument types) pair, refuting the claim. -/
theorem descriptor_per_pair_cex :
    ((runCalls initRegState
        [{ site := 0, fmt := "x=%".data, types := [CppTy.tyInt32] },
         { site := 1, fmt := "x=%".data, types := [CppTy.tyInt32] }]).2 =
      [({ site := 0, fmt := "x=%".data, types := [CppTy.tyInt32] }, 0),
       ({ site := 1, fmt := "x=%".data, types := [CppTy.tyInt32] }, 1)]) ∧
    (0 : Nat) ≠ 1 := by decide

/-- C6 amended: descriptor identity is per call site, not per
(format string, argument type sequence) pair: among records with equal
format strings and equal type sequences, those from the same call site
share one descriptor instance, and those from distinct call sites always
reference distinct descriptor instances. -/
theorem descriptor_per_site_not_per_pair (calls : List SiteCall)
    (r₁ r₂ : SiteCall × Nat)
    (h₁ : r₁ ∈ (runCalls initRegState calls).2)
    (h₂ : r₂ ∈ (runCalls initRegState calls).2)
    (hfmt : r₁.1.fmt = r₂.1.fmt) (hty : r₁.1.types = r₂.1.types) :
    (r₁.1.site = r₂.1.site → r₁.2 = r₂.2) ∧
    (r₁.1.site ≠ r₂.1.site → r₁.2 ≠ r₂.2) := by
  obtain ⟨c₁, d₁⟩ := r₁
  obtain ⟨c₂, d₂⟩ := r₂
  have k₁ := runCalls_record calls h₁
  have k₂ := runCalls_record calls h₂
  have hinv := runCalls_inv calls regInv_init
  constructor
  · intro hs
    rw [hs] at k₁
    rw [k₁] at k₂
    exact (Option.some.injEq d₁ d₂ ▸ k₂)
  · intro hne
    exact hinv.2 c₁.site c₂.site d₁ d₂ k₁ k₂ hne

theorem descriptor_per_site_not_per_pair_witness :
    ((({ site := 0, fmt := "x=%".data, types := [CppTy.tyInt32] }, 0) :
            SiteCall × Nat).1.site =
          ((({ site := 1, fmt := "x=%".data, types := [CppTy.tyInt32] }, 1) :
            SiteCall × Nat)).1.site →
        (0 : Nat) = 1) ∧
    ((({ site := 0, fmt := "x=%".data, types := [CppTy.tyInt32] }, 0) :
            SiteCall × Nat).1.site ≠
          ((({ site := 1, fmt := "x=%".data, types := [CppTy.tyInt32] }, 1) :
            SiteCall × Nat)).1.site →
        (0 : Nat) ≠ 1) :=
  descriptor_per_site_not_per_pair
    [{ site := 0, fmt := "x=%".data, types := [CppTy.tyInt32] },
     { site := 1, fmt := "x=%".data, types := [CppTy.tyInt32] }]
    ({ site := 0, fmt := "x=%".data, types := [CppTy.tyInt32] }, 0)
    ({ site := 1, fmt := "x=%".data, types := [CppTy.tyInt32] }, 1)
    (by decide) (by decide) (by decide) (by decide)

set_option maxRecDepth 10000 in
/-- C7 (the code violates the claim): there is no ring buffer — every write
lands in the one static header (src/main.cc:91-96, marked incomplete).
Writing five records back-to-back with no consumption in between leaves the
header in exactly the state of having written only the fifth record, so the
consumer renders only `"n=5"`; the other four records are overwritten, not
rendered, and no drop is counted (no drop counter exists in the source). -/
theorem single_header_overwrite :
    (List.foldl
        (fun h i => writeToHeader h
          { mFormatString := "n=%".data, argTypes := [CppTy.tyInt32] }
          [CppVal.vInt32 i])
        initialHeader [1, 2, 3, 4, 5]) =
      writeToHeader initialHeader
        { mFormatString := "n=%".data, argTypes := [CppTy.tyInt32] }
        [CppVal.vInt32 5] ∧
    Consume (List.foldl
        (fun h i => writeToHeader h
          { mFormatString := "n=%".data, argTypes := [CppTy.tyInt32] }
          [CppVal.vInt32 i])
        initialHeader [1, 2, 3, 4, 5]) [] = some "n=5".data := by decide

/-- C8: `Evaluate` is a pure function of the (descriptor, payload) pair that
only appends to the sink: whatever text it produces on an empty sink, it
writes that same text after any prior sink content, and a second invocation
on the same descriptor and payload appends the identical text again. -/
theorem evaluate_pure_append (d : LogFormatterD) (argsData : List Nat)
    (sink t : List Char) (h : Evaluate d argsData [] = some t) :
    Evaluate d argsData sink = some (sink ++ t) ∧
      Evaluate d argsData (sink ++ t) = some (sink ++ t ++ t) := by
  unfold Evaluate at h ⊢
  constructor
  · rw [Format_sink_append d.argTypes d.mFormatString argsData sink, h]
    rfl
  · rw [Format_sink_append d.argTypes d.mFormatString argsData (sink ++ t), h]
    rfl

theorem evaluate_pure_append_witness :
    Evaluate { mFormatString := "v=%".data, argTypes := [CppTy.tyChar] } [97]
        "x".data = some ("x".data ++ "v=a".data) ∧
      Evaluate { mFormatString := "v=%".data, argTypes := [CppTy.tyChar] } [97]
        ("x".data ++ "v=a".data) = some ("x".data ++ "v=a".data ++ "v=a".data) :=
  evaluate_pure_append { mFormatString := "v=%".data, argTypes := [CppTy.tyChar] }
    [97] "x".data "v=a".data (by decide)

/-- C9: the encoder writes exactly `GetArgsSize` bytes — the sum of the
arguments' sizes — so the returned buffer pointer is advanced by exactly
that many bytes; each argument's raw bytes sit, in declaration order and
without padding, at the offset equal to the sum of the preceding sizes; and
that layout is exactly the sequence of spans `Evaluate`'s decode step
consumes. -/
theorem copyArgs_layout (vs : List CppVal) :
    (CopyArgs vs).length = GetArgsSize vs ∧
    (∀ (i : Nat) (hi : i < vs.length),
        ((CopyArgs vs).drop (GetArgsSize (vs.take i))).take
            (sizeofVal (vs.get ⟨i, hi⟩)) =
          encodeVal (vs.get ⟨i, hi⟩)) ∧
    evalSlices (vs.map tyOf) (CopyArgs vs) = vs.map encodeVal :=
  ⟨CopyArgs_length vs, CopyArgs_offset vs, evalSlices_CopyArgs vs⟩

theorem copyArgs_layout_witness :
    ((CopyArgs [CppVal.vInt32 1, CppVal.vChar 97]).drop
          (GetArgsSize ([CppVal.vInt32 1, CppVal.vChar 97].take 1))).take
        (sizeofVal ([CppVal.vInt32 1, CppVal.vChar 97].get ⟨1, by decide⟩)) =
      encodeVal ([CppVal.vInt32 1, CppVal.vChar 97].get ⟨1, by decide⟩) :=
  (copyArgs_layout [CppVal.vInt32 1, CppVal.vChar 97]).2.1 1 (by decide)

/-- C10: for a call site whose format string has no placeholder markers and
zero arguments, the encoder computes size 0 and writes no bytes (the buffer
pointer comes back unchanged), and `Evaluate` writes the whole format string
to the sink verbatim. -/
theorem empty_args_verbatim (fmt sink : List Char)
    (_hfmt : CountPlaceholders fmt = 0) :
    GetArgsSize [] = 0 ∧ CopyArgs [] = [] ∧
      Evaluate { mFormatString := fmt, argTypes := [] } (CopyArgs []) sink =
        some (sink ++ fmt) :=
  ⟨rfl, rfl, rfl⟩

theorem empty_args_verbatim_witness :
    GetArgsSize [] = 0 ∧ CopyArgs [] = [] ∧
      Evaluate { mFormatString := "Hello".data, argTypes := [] } (CopyArgs []) [] =
        some ([] ++ "Hello".data) :=
  empty_args_verbatim "Hello".data [] (by decide)

end VariadicLogging
